import Mathlib

/-!
Verification of the worker-node execution core of the HMMER server
(`src/worker_node.h` of the Schaudge/HMMER repository).

The repository sources contain only the header `worker_node.h`: the data
structures, their documentation, and the declarations of the operations.
The operational code (`worker_node.c`) is not among the sources, so every
operation below whose doc comment starts with `Modelled from the spec:` is a
shallow embedding of the behaviour the specification document describes for
that operation; everything else is translated directly from the header.

Machine integers (`uint64_t`, `uint32_t`, `int`) are modelled as `Nat`/`Bool`;
none of the verified properties involves wrap-around arithmetic, and all
quantities in the header are counts, flags or object IDs.  The double-precision
hit keys are modelled as rationals: the properties proved about them use only
the total order on keys, never floating-point arithmetic.
-/

set_option maxHeartbeats 1000000

namespace HmmerServer

/-- Whether a worker thread is in front-end or back-end mode.
Source: enum `p7_thread_mode`, src/src/worker_node.h line 23. -/
inductive P7_THREAD_MODE where
  | FRONTEND
  | BACKEND
deriving DecidableEq, Repr

/-- What type of search the worker node is processing.
Source: enum `p7_search_type`, src/src/worker_node.h lines 25-35. -/
inductive P7_SEARCH_TYPE where
  | IDLE
  | SEQUENCE_SEARCH
  | SEQUENCE_SEARCH_CONTINUE
  | HMM_SEARCH
  | HMM_SEARCH_CONTINUE
deriving DecidableEq, Repr

/-- Region of the database that a worker thread is currently processing.
Source: struct `p7_work_descriptor`, src/src/worker_node.h lines 37-48.
The C struct's second field is named `end`, a reserved word in Lean, so it is
named `stop` here.  The pthread mutex field carries no data and is omitted. -/
structure P7_WORK_DESCRIPTOR where
  start : ℕ
  stop : ℕ
deriving DecidableEq, Repr

/-- Block of work assigned to a worker node; element of the global work queue.
Source: struct `p7_work_chunk`, src/src/worker_node.h lines 51-62 (the `next`
pointer is represented by membership in a `List`). -/
structure P7_WORK_CHUNK where
  start : ℕ
  stop : ℕ
deriving DecidableEq, Repr

/-- The set of database object IDs a work descriptor covers, as the header
documents it: the struct describes the region "consisting of sequences
start--end (inclusive) in the database" (src/src/worker_node.h line 37),
i.e. the closed interval from `start` to `stop`. -/
def P7_WORK_DESCRIPTOR.ids (d : P7_WORK_DESCRIPTOR) : Finset ℕ :=
  Finset.Icc d.start d.stop

/-- The set of database object IDs a work chunk covers, as the header documents
it: "a region of the database from start to end ... from IDs start--end,
inclusive" (src/src/worker_node.h lines 51-53). -/
def P7_WORK_CHUNK.ids (c : P7_WORK_CHUNK) : Finset ℕ :=
  Finset.Icc c.start c.stop

/-- The half-open interval reading of a work range that the specification
asserts (spec section 3: "A half-open range [start, end) of object IDs").
Stated separately so that it can be compared with the denotation the source
documents. -/
def halfOpenIds (s e : ℕ) : Finset ℕ :=
  Finset.Ico s e

/-- Modelled from the spec: the two mutations the specification allows on a
work descriptor during a search (spec section 3: "start monotonically
non-decreasing ... end monotonically non-increasing (a thief reduces end, the
owner advances start)").  The mutating code lives in `worker_node.c`, which is
not among the sources. -/
inductive DescStep : P7_WORK_DESCRIPTOR → P7_WORK_DESCRIPTOR → Prop where
  | ownerAdvance (d : P7_WORK_DESCRIPTOR) (k : ℕ) :
      DescStep d ⟨d.start + k, d.stop⟩
  | thiefReduce (d : P7_WORK_DESCRIPTOR) (k : ℕ) :
      DescStep d ⟨d.start, d.stop - k⟩

/-- Zero or more descriptor mutations. -/
def DescReach : P7_WORK_DESCRIPTOR → P7_WORK_DESCRIPTOR → Prop :=
  Relation.ReflTransGen DescStep

/-- The list of object IDs in the half-open interval from `s` to `e`.
Used by the spec-modelled operations, which the specification states in terms
of half-open ranges. -/
def rangeIds (s e : ℕ) : List ℕ :=
  (List.range (e - s)).map (s + ·)

/-- Modelled from the spec: `steal(n)` on a work range (spec section 4.1:
"under victim's lock, if end − start ≥ 2·min_steal, reduce end by
⌈(end−start)/2⌉ (bounded by n) and return the upper half; otherwise return
empty").  `worker_node.c`, which implements stealing, is not among the
sources.  The result is the pair (victim's remaining range, stolen range),
each as a half-open pair of bounds. -/
def stealRange (s e n minSteal : ℕ) : (ℕ × ℕ) × (ℕ × ℕ) :=
  if 2 * minSteal ≤ e - s then
    let amt := min ((e - s + 1) / 2) n
    ((s, e - amt), (e - amt, e))
  else
    ((s, e), (e, e))

/-- The mutexes of the worker node state.
Source: the `pthread_mutex_t` fields of struct `p7_server_workernode_state`
(src/src/worker_node.h lines 119-284) and the per-descriptor lock of
struct `p7_work_descriptor` (line 46), indexed by thread. -/
inductive ServerLock where
  | backend_threads_lock
  | wait_lock
  | global_queue_lock
  | work_request_lock
  | backend_queue_lock
  | backend_pool_lock
  | hit_list_lock
  | empty_hit_pool_lock
  | work_lock (i : ℕ)
deriving DecidableEq, Repr

/-- The total lock order the claim asserts: backend_threads_lock → wait_lock →
global_queue_lock → work_request_lock → backend_queue_lock →
backend_pool_lock → hit_list_lock → empty_hit_pool_lock → WorkRange.lock[i],
rendered as an ascending level per lock. -/
def claimedLevel : ServerLock → ℕ
  | .backend_threads_lock => 0
  | .wait_lock => 1
  | .global_queue_lock => 2
  | .work_request_lock => 3
  | .backend_queue_lock => 4
  | .backend_pool_lock => 5
  | .hit_list_lock => 6
  | .empty_hit_pool_lock => 7
  | .work_lock _ => 8

/-- The lock order with the per-thread work locks placed before
`global_queue_lock`, which is the discipline the header documents: "Threads
sometimes try to lock this lock when they hold a lock on a thread's local work
queue.  Therefore, to prevent deadlock, a thread that holds this lock must
never try to lock a thread's local work queue" (src/src/worker_node.h lines
236-239). -/
def sourceLevel : ServerLock → ℕ
  | .backend_threads_lock => 0
  | .wait_lock => 1
  | .work_lock _ => 2
  | .global_queue_lock => 3
  | .work_request_lock => 4
  | .backend_queue_lock => 5
  | .backend_pool_lock => 6
  | .hit_list_lock => 7
  | .empty_hit_pool_lock => 8

/-- Does a nested lock-acquisition path respect a given lock order?  A path
lists the locks a thread acquires while still holding all the earlier ones, in
acquisition order; it respects the order when the levels strictly ascend. -/
def respectsOrder (level : ServerLock → ℕ) : List ServerLock → Bool
  | [] => true
  | [_] => true
  | a :: b :: rest => decide (level a < level b) && respectsOrder level (b :: rest)

/-- Does a path acquire `global_queue_lock` at a moment when some per-thread
work lock is already held?  This is the behaviour the claim forbids. -/
def acquiresGlobalWhileHoldingRange : List ServerLock → Bool
  | [] => false
  | a :: rest =>
      (match a with | ServerLock.work_lock _ => rest.contains ServerLock.global_queue_lock | _ => false)
      || acquiresGlobalWhileHoldingRange rest

/-- Does a path acquire some per-thread work lock at a moment when
`global_queue_lock` is already held?  This is the behaviour the header
forbids (src/src/worker_node.h lines 236-239). -/
def acquiresRangeWhileHoldingGlobal : List ServerLock → Bool
  | [] => false
  | a :: rest =>
      (a == ServerLock.global_queue_lock && rest.any (fun b => match b with | ServerLock.work_lock _ => true | _ => false))
      || acquiresRangeWhileHoldingGlobal rest

/-- The nested lock-acquisition paths of the worker node.  The singleton paths
are the short critical sections the specification describes for each component
(sections 4.2-4.6: global queue operations, request gating, backend queue and
pool, hit list and empty-hit pool, role reassignment, waiting for the start
signal, take_local and steal under a descriptor lock).  The final path is the
one the header itself documents: a thread that holds its local work lock and
then takes `global_queue_lock` (src/src/worker_node.h lines 236-239). -/
def workerLockPaths : List (List ServerLock) :=
  [ [ServerLock.backend_threads_lock],
    [ServerLock.wait_lock],
    [ServerLock.global_queue_lock],
    [ServerLock.work_request_lock],
    [ServerLock.backend_queue_lock],
    [ServerLock.backend_pool_lock],
    [ServerLock.hit_list_lock],
    [ServerLock.empty_hit_pool_lock],
    [ServerLock.work_lock 0],
    [ServerLock.work_lock 1],
    [ServerLock.work_lock 0, ServerLock.global_queue_lock] ]

/-- Does a database object ID belong to this worker's shard?  Source:
"Only IDs id such that id mod num_shards == my_shard belong to this worker"
(spec section 3), matching the `num_shards` / `my_shard` fields of
src/src/worker_node.h lines 126-130. -/
def onShard (ns ms id : ℕ) : Bool :=
  decide (id % ns = ms)

/-- The multiset of object IDs of a half-open range that belong to this
worker's shard (the IDs the pipeline is offered when the range is drained;
non-matching IDs are skipped). -/
def shardIds (ns ms : ℕ) (r : ℕ × ℕ) : Multiset ℕ :=
  ((rangeIds r.1 r.2).filter (onShard ns ms) : List ℕ)

/-- Modelled from the spec: the state of one search's work distribution on a
worker node, abstracted to the data that determines which object IDs are
offered to `pipeline.front`.  `ranges` are the per-thread work descriptors
(half-open), `queue` the global work queue of chunks, `granted` the chunks
received from the master so far (the initial `SearchStart` range followed by
the `WorkGrant` ranges), `offered` the multiset of shard-matching IDs offered
to the pipeline front end so far, `numBackend` the count of back-end threads
(role reassignment), and `noMore` whether `NoMoreWork` has arrived.  The
distributing code lives in `worker_node.c`, which is not among the sources. -/
structure DistState where
  ranges : List (ℕ × ℕ)
  queue : List (ℕ × ℕ)
  granted : List (ℕ × ℕ)
  offered : Multiset ℕ
  numBackend : ℕ
  noMore : Bool
deriving DecidableEq

/-- Modelled from the spec: the events of a search that move object IDs
(spec sections 4.1, 4.2, 4.6, 4.7): a `WorkGrant` from the master appends a
chunk to the global queue; `NoMoreWork` ends the stream of grants; a thread
takes a batch from the front of its own range and offers the shard-matching
IDs in it to `pipeline.front`; a thread whose range is exhausted steals the
upper part of a peer's range or pulls a prefix of the head chunk of the global
queue; exhausted head chunks are discarded; the scheduler promotes or demotes
back-end threads (which moves no IDs). -/
inductive DistStep (ns ms : ℕ) : DistState → DistState → Prop where
  | grant (st : DistState) (c : ℕ × ℕ) (h : st.noMore = false) :
      DistStep ns ms st
        { st with queue := st.queue ++ [c], granted := st.granted ++ [c] }
  | noMoreWork (st : DistState) :
      DistStep ns ms st { st with noMore := true }
  | takeLocal (st : DistState) (t : ℕ) (s e k : ℕ)
      (ht : st.ranges[t]? = some (s, e)) (hk : k ≤ e - s) :
      DistStep ns ms st
        { st with
          ranges := st.ranges.set t (s + k, e),
          offered := st.offered + shardIds ns ms (s, s + k) }
  | steal (st : DistState) (t v : ℕ) (a s e m : ℕ) (hne : t ≠ v)
      (ht : st.ranges[t]? = some (a, a)) (hv : st.ranges[v]? = some (s, e))
      (hm1 : s ≤ m) (hm2 : m ≤ e) :
      DistStep ns ms st
        { st with ranges := (st.ranges.set v (s, m)).set t (m, e) }
  | pull (st : DistState) (t : ℕ) (a : ℕ) (c : ℕ × ℕ) (rest : List (ℕ × ℕ))
      (k : ℕ) (ht : st.ranges[t]? = some (a, a)) (hq : st.queue = c :: rest)
      (hk : k ≤ c.2 - c.1) :
      DistStep ns ms st
        { st with
          ranges := st.ranges.set t (c.1, c.1 + k),
          queue := (c.1 + k, c.2) :: rest }
  | dropChunk (st : DistState) (c : ℕ × ℕ) (rest : List (ℕ × ℕ))
      (hq : st.queue = c :: rest) (hc : c.2 ≤ c.1) :
      DistStep ns ms st { st with queue := rest }
  | promote (st : DistState) :
      DistStep ns ms st { st with numBackend := st.numBackend + 1 }
  | demote (st : DistState) :
      DistStep ns ms st { st with numBackend := st.numBackend - 1 }

/-- Zero or more work-distribution events. -/
def DistReach (ns ms : ℕ) : DistState → DistState → Prop :=
  Relation.ReflTransGen (DistStep ns ms)

/-- Modelled from the spec: the state right after `SearchStart` with range `R`
on a node with `numThreads` worker threads: every per-thread range starts
empty, the initial range is the sole chunk of the global queue (the threads
then pull their slices from it), nothing has been offered yet, one thread is a
back-end thread, and the master has not said `NoMoreWork`. -/
def distStart (numThreads : ℕ) (R : ℕ × ℕ) : DistState :=
  { ranges := List.replicate numThreads (0, 0)
    queue := [R]
    granted := [R]
    offered := 0
    numBackend := 1
    noMore := false }

/-- The shard-matching IDs still waiting in the per-thread ranges and in the
global queue. -/
def pendingIds (ns ms : ℕ) (st : DistState) : Multiset ℕ :=
  (st.ranges.map (shardIds ns ms)).sum + (st.queue.map (shardIds ns ms)).sum

/-- The shard-matching IDs of every chunk the master has granted. -/
def grantedIds (ns ms : ℕ) (st : DistState) : Multiset ℕ :=
  (st.granted.map (shardIds ns ms)).sum

/-- Conservation: the IDs offered so far plus the IDs still pending are
exactly the IDs granted so far. -/
def Conserved (ns ms : ℕ) (st : DistState) : Prop :=
  st.offered + pendingIds ns ms st = grantedIds ns ms st

/-- A search has terminated: `NoMoreWork` has arrived and no shard-matching ID
is waiting in any range or in the global queue. -/
def DistTerminal (ns ms : ℕ) (st : DistState) : Prop :=
  st.noMore = true ∧ pendingIds ns ms st = 0

/-- Two chunks granted by the master do not overlap. -/
def ChunksDisjoint (c d : ℕ × ℕ) : Prop :=
  ∀ id : ℕ, id ∈ rangeIds c.1 c.2 → id ∉ rangeIds d.1 d.2

/-- Modelled from the spec: the flags that gate work requests to the master
(spec section 4.6 and src/src/worker_node.h lines 242-260), together with the
number of `WorkRequest` messages sent to the master and not yet answered. -/
structure ReqState where
  request_work : Bool
  work_requested : Bool
  master_queue_empty : Bool
  inFlight : ℕ
deriving DecidableEq, Repr

/-- The request-gating state between searches: no flag set, nothing in
flight. -/
def reqStart : ReqState :=
  { request_work := false
    work_requested := false
    master_queue_empty := false
    inFlight := 0 }

/-- Modelled from the spec: the events of the master work-request protocol
(spec section 4.6): a worker thread that observes the global queue below the
request threshold sets `request_work` and `work_requested` under
`work_request_lock`, but only if neither `work_requested` nor
`master_queue_empty` is set; the main thread observes `request_work`, sends
one `WorkRequest` to the master and clears `request_work`; a `WorkGrant`
reply clears `work_requested`; a `NoMoreWork` reply clears `work_requested`
and sets `master_queue_empty`; starting the next search resets the flags
(src/src/worker_node.h lines 257-260: "This flag is reset as part of starting
a new search"). -/
inductive ReqStep : ReqState → ReqState → Prop where
  | observeLowWater (s : ReqState) (h1 : s.work_requested = false)
      (h2 : s.master_queue_empty = false) :
      ReqStep s { s with request_work := true, work_requested := true }
  | sendRequest (s : ReqState) (h : s.request_work = true) :
      ReqStep s { s with request_work := false, inFlight := s.inFlight + 1 }
  | recvGrant (s : ReqState) (h : 1 ≤ s.inFlight) :
      ReqStep s { s with inFlight := s.inFlight - 1, work_requested := false }
  | recvNoMoreWork (s : ReqState) (h : 1 ≤ s.inFlight) :
      ReqStep s
        { s with
          inFlight := s.inFlight - 1
          work_requested := false
          master_queue_empty := true }
  | startNextSearch (s : ReqState) (h : s.inFlight = 0) :
      ReqStep s reqStart

/-- Zero or more request-protocol events starting from the between-searches
state. -/
def ReqReach : ReqState → Prop :=
  Relation.ReflTransGen ReqStep reqStart

/-- The inductive invariant of the request protocol: `request_work` implies
`work_requested`; at most one request is in flight, and while one is,
`work_requested` is set and `request_work` is clear; once
`master_queue_empty` is set, no flag is set and nothing is in flight. -/
def ReqInv (s : ReqState) : Prop :=
  (s.request_work = true → s.work_requested = true ∧ s.inFlight = 0) ∧
  (s.inFlight = 0 ∨ (s.inFlight = 1 ∧ s.work_requested = true ∧ s.request_work = false)) ∧
  (s.master_queue_empty = true →
    s.request_work = false ∧ s.work_requested = false ∧ s.inFlight = 0)

/-- A scored hit, keyed for sorting.  Source: the hit list of
src/src/worker_node.h lines 215-222 stores hits in an
`ESL_RED_BLACK_DOUBLEKEY` tree "used to keep hits sorted"; the spec (section
3) gives the key pair `(primary_key, secondary_key)`, sorted descending on
both.  The double-precision keys are modelled as rationals; only their order
is used. -/
structure ServerHit where
  object_id : ℕ
  primary_key : ℚ
  secondary_key : ℚ
deriving DecidableEq

/-- The sort order on hits: `a` precedes or equals `b` when `a`'s key pair is
greater than or equal to `b`'s in the lexicographic order (primary key
descending, ties broken by secondary key descending). -/
def hitKeyGE (a b : ServerHit) : Bool :=
  decide (b.primary_key < a.primary_key) ||
    (decide (a.primary_key = b.primary_key) && decide (b.secondary_key ≤ a.secondary_key))

/-- Modelled from the spec: adding one hit to the ordered hit collector
(spec section 4.4, "an ordered multiset keyed as in section 3"): the hit is
inserted in front of the first hit whose key pair is not greater, keeping the
list sorted descending.  The red-black container that implements this
(`esl_red_black.c`) is an external collaborator, not among the sources. -/
def hitInsert (h : ServerHit) : List ServerHit → List ServerHit
  | [] => [h]
  | x :: xs => if hitKeyGE h x then h :: x :: xs else x :: hitInsert h xs

/-- Modelled from the spec: the hit list after the threads have added a given
arrival sequence of hits, one `add` at a time (spec section 4.4). -/
def hitListOf (arrivals : List ServerHit) : List ServerHit :=
  arrivals.foldl (fun acc h => hitInsert h acc) []

/-- Modelled from the spec: `drain` of the hit collector, the sorted sequence
carried by the `HitsUpload` message at search end (spec section 4.4). -/
def hitDrain (l : List ServerHit) : List ServerHit :=
  l

/-- A sequence of hits is monotonically non-increasing in
`(primary_key, secondary_key)`. -/
def HitsSortedDesc (l : List ServerHit) : Prop :=
  List.Pairwise (fun a b => hitKeyGE a b = true) l

/-- Modelled from the spec: the thread-role bookkeeping of the scheduler
(spec section 4.6 and src/src/worker_node.h lines 135-142): the fixed number
of worker threads, the current number of back-end threads, and the depth of
the backend queue that drives promotion and demotion. -/
structure RoleState where
  num_threads : ℕ
  num_backend_threads : ℕ
  backend_queue_depth : ℕ
deriving DecidableEq, Repr

/-- The number of front-end threads: every worker thread that is not a
back-end thread. -/
def num_frontend_threads (s : RoleState) : ℕ :=
  s.num_threads - s.num_backend_threads

/-- Modelled from the spec: the scheduler events that touch the role counts
(spec section 4.6, parametrised by the promotion threshold `promoteHi`):
under `backend_threads_lock`, a front-end thread is switched to back-end duty
when the backend queue is deeper than `promoteHi` times the number of
back-end threads and at least one front-end thread would remain; a back-end
thread is switched to front-end duty when the backend queue is empty and at
least one back-end thread would remain.  Front-end threads enqueue entries
and back-end threads dequeue them. -/
inductive RoleStep (promoteHi : ℕ) : RoleState → RoleState → Prop where
  | promoteToBackend (s : RoleState)
      (hdepth : promoteHi * s.num_backend_threads < s.backend_queue_depth)
      (hroom : s.num_backend_threads < s.num_threads - 1) :
      RoleStep promoteHi s { s with num_backend_threads := s.num_backend_threads + 1 }
  | demoteToFrontend (s : RoleState) (hdepth : s.backend_queue_depth = 0)
      (hmin : 1 < s.num_backend_threads) :
      RoleStep promoteHi s { s with num_backend_threads := s.num_backend_threads - 1 }
  | enqueueEntry (s : RoleState) :
      RoleStep promoteHi s { s with backend_queue_depth := s.backend_queue_depth + 1 }
  | dequeueEntry (s : RoleState) :
      RoleStep promoteHi s { s with backend_queue_depth := s.backend_queue_depth - 1 }

/-- Zero or more scheduler events. -/
def RoleReach (promoteHi : ℕ) : RoleState → RoleState → Prop :=
  Relation.ReflTransGen (RoleStep promoteHi)

/-- The role invariant: at least one back-end thread, at least one front-end
thread, and the two role counts sum to the thread count. -/
def RoleInv (s : RoleState) : Prop :=
  1 ≤ s.num_backend_threads ∧ s.num_backend_threads ≤ s.num_threads - 1 ∧
    s.num_backend_threads + num_frontend_threads s = s.num_threads

/-- The messages the master sends during a search, after the initial
`SearchStart` and before the search ends (spec section 6). -/
inductive MidMsg where
  | workGrant (r : ℕ × ℕ)
  | noMoreWork
deriving DecidableEq, Repr

/-- Is this message a work grant? -/
def isGrant : MidMsg → Bool
  | .workGrant _ => true
  | .noMoreWork => false

/-- The `Continue` variant of a search type.  Source: the enum documentation,
src/src/worker_node.h lines 25-35: the `..._CONTINUE` value of a search type
is the same search after "the master node has delivered at least one chunk of
work after the first". -/
def continueOf : P7_SEARCH_TYPE → P7_SEARCH_TYPE
  | .SEQUENCE_SEARCH => .SEQUENCE_SEARCH_CONTINUE
  | .HMM_SEARCH => .HMM_SEARCH_CONTINUE
  | t => t

/-- Is a search type one of the `Continue` variants? -/
def isContinueVariant : P7_SEARCH_TYPE → Bool
  | .SEQUENCE_SEARCH_CONTINUE => true
  | .HMM_SEARCH_CONTINUE => true
  | _ => false

/-- Does a thread that wakes up while the node is in this search type run the
per-search start-of-search work?  Source: src/src/worker_node.h lines 28-33:
the `Continue` search types exist "so that ... that thread will not re-do
start-of-search work when woken up after more work arrives"; only the two
initial in-search variants run it. -/
def runsStartOfSearchWork : P7_SEARCH_TYPE → Bool
  | .SEQUENCE_SEARCH => true
  | .HMM_SEARCH => true
  | _ => false

/-- Modelled from the spec: how a mid-search master message changes
`search_type` (spec sections 4.7 and 8, scenario S2): the first `WorkGrant`
after the start moves the search type to its `Continue` variant, later grants
leave it there, and `NoMoreWork` does not change it. -/
def handleMid (t : P7_SEARCH_TYPE) (m : MidMsg) : P7_SEARCH_TYPE :=
  match m with
  | .workGrant _ => continueOf t
  | .noMoreWork => t

/-- The trace of `search_type` values over a mid-search message sequence,
starting from the value `t0` that `SearchStart` installed. -/
def searchTrace (t0 : P7_SEARCH_TYPE) (msgs : List MidMsg) : List P7_SEARCH_TYPE :=
  msgs.scanl handleMid t0

/-- The worker node state, reduced to the fields the verified claims speak
about.  Source: struct `p7_server_workernode_state`, src/src/worker_node.h
lines 119-284.  The first seven fields are the ones the header marks as "set
at startup, before any threads start" (line 147); pointer arrays are modelled
as lists of handles, and fields holding external objects (pipelines, models,
shards) are modelled by numeric handles. -/
structure P7_SERVER_WORKERNODE_STATE where
  my_rank : ℕ
  num_databases : ℕ
  num_shards : ℕ
  my_shard : ℕ
  database_shards : List ℕ
  num_threads : ℕ
  thread_objs : List ℕ
  num_backend_threads : ℕ
  chunk_size : ℕ
  num_waiting : ℕ
  no_steal : Bool
  shutdown : Bool
  search_type : P7_SEARCH_TYPE
  compare_database : ℕ
  work : List (ℕ × ℕ)
  hit_list : List ServerHit
  hits_in_list : ℕ
  global_queue : List (ℕ × ℕ)
  request_work : Bool
  work_requested : Bool
  master_queue_empty : Bool
  backend_queue_depth : ℕ
deriving DecidableEq

/-- Modelled from the spec: the operations the worker node performs once the
threads are running (spec sections 4.5-4.7), each given with the fields it
writes; none of them writes the seven configuration fields the header marks
as set at startup (src/src/worker_node.h line 147). -/
inductive NodeStep : P7_SERVER_WORKERNODE_STATE → P7_SERVER_WORKERNODE_STATE → Prop where
  | startSearch (s : P7_SERVER_WORKERNODE_STATE) (t : P7_SEARCH_TYPE) (db : ℕ)
      (w : List (ℕ × ℕ)) :
      NodeStep s
        { s with
          search_type := t
          compare_database := db
          work := w
          master_queue_empty := false
          request_work := false
          work_requested := false
          no_steal := false }
  | workGrantArrives (s : P7_SERVER_WORKERNODE_STATE) (c : ℕ × ℕ) :
      NodeStep s
        { s with
          global_queue := s.global_queue ++ [c]
          search_type := continueOf s.search_type
          no_steal := false
          work_requested := false }
  | noMoreWorkArrives (s : P7_SERVER_WORKERNODE_STATE) :
      NodeStep s { s with master_queue_empty := true, work_requested := false }
  | takeOrSteal (s : P7_SERVER_WORKERNODE_STATE) (w : List (ℕ × ℕ))
      (q : List (ℕ × ℕ)) (ns : Bool) :
      NodeStep s { s with work := w, global_queue := q, no_steal := ns }
  | requestWork (s : P7_SERVER_WORKERNODE_STATE) (rw wr : Bool) :
      NodeStep s { s with request_work := rw, work_requested := wr }
  | roleChange (s : P7_SERVER_WORKERNODE_STATE) (nb : ℕ) (depth : ℕ) :
      NodeStep s { s with num_backend_threads := nb, backend_queue_depth := depth }
  | addHit (s : P7_SERVER_WORKERNODE_STATE) (h : ServerHit) :
      NodeStep s
        { s with
          hit_list := hitInsert h s.hit_list
          hits_in_list := s.hits_in_list + 1 }
  | waitForStart (s : P7_SERVER_WORKERNODE_STATE) (n : ℕ) :
      NodeStep s { s with num_waiting := n }
  | endSearch (s : P7_SERVER_WORKERNODE_STATE) :
      NodeStep s
        { s with
          search_type := P7_SEARCH_TYPE.IDLE
          hit_list := []
          hits_in_list := 0
          work := []
          global_queue := [] }
  | shutdownNode (s : P7_SERVER_WORKERNODE_STATE) :
      NodeStep s { s with shutdown := true }

/-! Helper lemmas about half-open ranges of object IDs. -/

theorem mem_rangeIds {s e x : ℕ} : x ∈ rangeIds s e ↔ s ≤ x ∧ x < e := by
  simp only [rangeIds, List.mem_map, List.mem_range]
  constructor
  · rintro ⟨y, hy, rfl⟩
    omega
  · rintro ⟨h1, h2⟩
    exact ⟨x - s, by omega, by omega⟩

theorem rangeIds_nodup (s e : ℕ) : (rangeIds s e).Nodup := by
  exact (List.nodup_range _).map fun a b h => by omega

theorem rangeIds_split (s e k : ℕ) (h : k ≤ e - s) :
    rangeIds s e = rangeIds s (s + k) ++ rangeIds (s + k) e := by
  rcases Nat.le_total s e with hse | hes
  · unfold rangeIds
    have h1 : s + k - s = k := by omega
    have h2 : e - s = k + (e - (s + k)) := by omega
    rw [h1, h2, List.range_add, List.map_append, List.map_map]
    congr 1
    apply List.map_congr_left
    intro x _
    simp only [Function.comp_apply]
    omega
  · have hk0 : k = 0 := by omega
    subst hk0
    have h1 : e - s = 0 := by omega
    unfold rangeIds
    simp [h1]

theorem rangeIds_empty {s e : ℕ} (h : e ≤ s) : rangeIds s e = [] := by
  unfold rangeIds
  have : e - s = 0 := by omega
  simp [this]

/-! Lock-order theorems (claim C2).  The repository documents the discipline
for the pair of locks the claim singles out at src/src/worker_node.h lines
236-239: threads sometimes hold a per-thread work lock while acquiring
`global_queue_lock`, and the forbidden direction is acquiring a work lock
while holding `global_queue_lock` — the reverse of what the claim asserts. -/

/-- C2, counterexample: the nested acquisition path the header documents — a
thread holding its per-thread work lock then taking `global_queue_lock`
(src/src/worker_node.h lines 236-239) — violates the order the claim asserts,
in which every `WorkRange.lock[i]` comes after `global_queue_lock`. -/
theorem c2_counterexample :
    workerLockPaths.all (respectsOrder claimedLevel) = false ∧
      acquiresGlobalWhileHoldingRange
        [ServerLock.work_lock 0, ServerLock.global_queue_lock] = true ∧
      [ServerLock.work_lock 0, ServerLock.global_queue_lock] ∈ workerLockPaths := by
  decide

/-- C2, amended: with the per-thread work locks ordered before
`global_queue_lock` — the discipline src/src/worker_node.h lines 236-239
documents — every nested acquisition path of the worker node respects the lock
order, and in particular no thread acquires a per-thread work lock while
holding `global_queue_lock`. -/
theorem c2_amended_lock_order :
    workerLockPaths.all (respectsOrder sourceLevel) = true ∧
      workerLockPaths.all (fun p => !acquiresRangeWhileHoldingGlobal p) = true := by
  decide

/-! Work-range denotation theorems (claim C3).  The header documents both the
descriptor and the chunk as covering IDs start to end inclusive
(src/src/worker_node.h lines 37 and 51-53), not the half-open interval the
claim asserts. -/

/-- C3, counterexample: per the source's documented denotation a work
descriptor with `start = end = 5` still covers the ID 5 — the ID equal to
`end` is part of the range and a descriptor with `start == end` is not
exhausted — and a work chunk from 0 to 3 covers 3, so neither denotes the
half-open interval the claim asserts. -/
theorem c3_counterexample :
    (P7_WORK_DESCRIPTOR.mk 5 5).ids ≠ halfOpenIds 5 5 ∧
      5 ∈ (P7_WORK_DESCRIPTOR.mk 5 5).ids ∧
      (P7_WORK_CHUNK.mk 0 3).ids ≠ halfOpenIds 0 3 ∧ 3 ∈ (P7_WORK_CHUNK.mk 0 3).ids := by
  decide

/-- C3, amended: every work range denotes the closed (inclusive) ID interval
from `start` to `end`: the ID equal to `end` is processed as part of the
range whenever the range is nonempty, the range is empty exactly when
`end < start`, and within a search `start` is monotonically non-decreasing
and `end` monotonically non-increasing (only the owner advances `start`, only
a thief reduces `end`). -/
theorem c3_amended_inclusive_range (d d' : P7_WORK_DESCRIPTOR)
    (hreach : DescReach d d') :
    (d.start ≤ d.stop → d.stop ∈ d.ids) ∧ (d.ids = ∅ ↔ d.stop < d.start) ∧
      d.start ≤ d'.start ∧ d'.stop ≤ d.stop := by
  refine ⟨?_, ?_, ?_⟩
  · intro h
    simp [P7_WORK_DESCRIPTOR.ids, Finset.mem_Icc, h]
  · rw [P7_WORK_DESCRIPTOR.ids, Finset.Icc_eq_empty_iff]
    omega
  · induction hreach with
    | refl => exact ⟨le_rfl, le_rfl⟩
    | tail h step ih =>
      cases step with
      | ownerAdvance k => exact ⟨ih.1.trans (Nat.le_add_right _ _), ih.2⟩
      | thiefReduce k => exact ⟨ih.1, (Nat.sub_le _ _).trans ih.2⟩

/-- C3, witness for the amended theorem at the descriptor from 2 to 5, with
the owner advancing `start` by one and a thief reducing `end` by one. -/
theorem c3_amended_inclusive_range_witness :
    5 ∈ (P7_WORK_DESCRIPTOR.mk 2 5).ids ∧
      (P7_WORK_DESCRIPTOR.mk 2 5).start ≤ (P7_WORK_DESCRIPTOR.mk 3 4).start ∧
      (P7_WORK_DESCRIPTOR.mk 3 4).stop ≤ (P7_WORK_DESCRIPTOR.mk 2 5).stop := by
  have h := c3_amended_inclusive_range ⟨2, 5⟩ ⟨3, 4⟩
    (Relation.ReflTransGen.tail
      (Relation.ReflTransGen.tail Relation.ReflTransGen.refl
        (DescStep.ownerAdvance ⟨2, 5⟩ 1))
      (DescStep.thiefReduce ⟨3, 5⟩ 1))
  exact ⟨h.1 (by decide), h.2.2.1, h.2.2.2⟩

/-- C7: on a range holding at least `2 * minSteal` IDs, `steal` reduces `end`
by the ceiling of half the range size bounded above by `n`, returns exactly
the removed upper half (the two parts concatenate back to the original range
and share no ID), and otherwise modifies nothing and returns the empty
range. -/
theorem c7_steal_upper_half (s e n m : ℕ) (hse : s ≤ e) :
    (2 * m ≤ e - s →
      stealRange s e n m =
        ((s, e - min ((e - s + 1) / 2) n), (e - min ((e - s + 1) / 2) n, e)) ∧
      rangeIds s (e - min ((e - s + 1) / 2) n) ++
          rangeIds (e - min ((e - s + 1) / 2) n) e = rangeIds s e ∧
      ∀ id : ℕ, id ∈ rangeIds s (e - min ((e - s + 1) / 2) n) →
        id ∉ rangeIds (e - min ((e - s + 1) / 2) n) e) ∧
    (e - s < 2 * m → stealRange s e n m = ((s, e), (e, e)) ∧ rangeIds e e = []) := by
  constructor
  · intro hguard
    refine ⟨by rw [stealRange, if_pos hguard], ?_, ?_⟩
    · have hk : (e - min ((e - s + 1) / 2) n) - s ≤ e - s := by omega
      have hs2 : s + ((e - min ((e - s + 1) / 2) n) - s) = e - min ((e - s + 1) / 2) n := by
        omega
      have := rangeIds_split s e ((e - min ((e - s + 1) / 2) n) - s) hk
      rw [hs2] at this
      exact this.symm
    · intro id hid
      rw [mem_rangeIds] at hid
      rw [mem_rangeIds]
      omega
  · intro hguard
    refine ⟨by rw [stealRange, if_neg (by omega)], rangeIds_empty le_rfl⟩

/-- C7, witness: stealing with `min_steal = 2` from the range of IDs 0 to 9
takes the upper half 5 to 9, and from the three-ID range 0 to 2 takes
nothing. -/
theorem c7_steal_upper_half_witness :
    stealRange 0 10 5 2 = ((0, 5), (5, 10)) ∧
      stealRange 0 3 5 2 = ((0, 3), (3, 3)) := by
  have h1 := (c7_steal_upper_half 0 10 5 2 (by decide)).1 (by decide)
  have h2 := (c7_steal_upper_half 0 3 5 2 (by decide)).2 (by decide)
  exact ⟨h1.1.trans (by decide), h2.1⟩

/-! Hit-collector theorems (claim C5). -/

theorem hitKeyGE_total (a b : ServerHit) : hitKeyGE a b = true ∨ hitKeyGE b a = true := by
  simp only [hitKeyGE, Bool.or_eq_true, Bool.and_eq_true, decide_eq_true_eq]
  rcases lt_trichotomy a.primary_key b.primary_key with h | h | h
  · exact Or.inr (Or.inl h)
  · rcases le_total a.secondary_key b.secondary_key with h2 | h2
    · exact Or.inr (Or.inr ⟨h.symm, h2⟩)
    · exact Or.inl (Or.inr ⟨h, h2⟩)
  · exact Or.inl (Or.inl h)

theorem hitKeyGE_trans {a b c : ServerHit} (h1 : hitKeyGE a b = true)
    (h2 : hitKeyGE b c = true) : hitKeyGE a c = true := by
  simp only [hitKeyGE, Bool.or_eq_true, Bool.and_eq_true, decide_eq_true_eq] at h1 h2 ⊢
  rcases h1 with h1 | ⟨h1e, h1s⟩ <;> rcases h2 with h2 | ⟨h2e, h2s⟩
  · exact Or.inl (h2.trans h1)
  · exact Or.inl (by rw [← h2e]; exact h1)
  · exact Or.inl (by rw [h1e]; exact h2)
  · exact Or.inr ⟨h1e.trans h2e, h2s.trans h1s⟩

theorem mem_hitInsert {y h : ServerHit} :
    ∀ {l : List ServerHit}, y ∈ hitInsert h l ↔ y = h ∨ y ∈ l := by
  intro l
  induction l with
  | nil => simp [hitInsert]
  | cons x xs ih =>
    by_cases hc : hitKeyGE h x = true
    · simp [hitInsert, hc]
    · simp only [hitInsert, if_neg hc, List.mem_cons, ih]
      tauto

theorem hitInsert_sorted {h : ServerHit} :
    ∀ {l : List ServerHit}, HitsSortedDesc l → HitsSortedDesc (hitInsert h l) := by
  intro l
  induction l with
  | nil => intro _; simp [hitInsert, HitsSortedDesc]
  | cons x xs ih =>
    intro hs
    rw [HitsSortedDesc, List.pairwise_cons] at hs
    by_cases hc : hitKeyGE h x = true
    · rw [HitsSortedDesc, hitInsert, if_pos hc, List.pairwise_cons]
      refine ⟨?_, List.Pairwise.cons hs.1 hs.2⟩
      intro y hy
      rcases List.mem_cons.mp hy with rfl | hy2
      · exact hc
      · exact hitKeyGE_trans hc (hs.1 y hy2)
    · rw [HitsSortedDesc, hitInsert, if_neg hc, List.pairwise_cons]
      refine ⟨?_, ih hs.2⟩
      intro y hy
      rcases mem_hitInsert.mp hy with hy1 | hy2
      · rw [hy1]
        rcases hitKeyGE_total h x with ht | ht
        · exact absurd ht hc
        · exact ht
      · exact hs.1 y hy2

theorem hitInsert_perm (h : ServerHit) :
    ∀ (l : List ServerHit), (hitInsert h l).Perm (h :: l) := by
  intro l
  induction l with
  | nil => simp [hitInsert]
  | cons x xs ih =>
    by_cases hc : hitKeyGE h x = true
    · rw [hitInsert, if_pos hc]
    · rw [hitInsert, if_neg hc]
      exact (ih.cons x).trans (List.Perm.swap h x xs)

theorem hitFold_sorted :
    ∀ (arrivals acc : List ServerHit), HitsSortedDesc acc →
      HitsSortedDesc (arrivals.foldl (fun a h => hitInsert h a) acc) := by
  intro arrivals
  induction arrivals with
  | nil => intro acc h; exact h
  | cons x xs ih =>
    intro acc h
    exact ih (hitInsert x acc) (hitInsert_sorted h)

theorem hitFold_perm :
    ∀ (arrivals acc : List ServerHit),
      (arrivals.foldl (fun a h => hitInsert h a) acc).Perm (arrivals ++ acc) := by
  intro arrivals
  induction arrivals with
  | nil => intro acc; simp
  | cons x xs ih =>
    intro acc
    refine (ih (hitInsert x acc)).trans ?_
    refine ((hitInsert_perm x acc).append_left xs).trans ?_
    exact List.perm_middle

/-- C5: whatever order the threads inserted hits in, the sequence of hits in
the `HitsUpload` at search end is monotonically non-increasing in
`(primary_key, secondary_key)` — primary key descending, ties broken by
secondary key descending — and is a permutation of the inserted hits. -/
theorem c5_upload_sorted (arrivals : List ServerHit) :
    HitsSortedDesc (hitDrain (hitListOf arrivals)) ∧
      (hitDrain (hitListOf arrivals)).Perm arrivals := by
  refine ⟨hitFold_sorted arrivals [] (by simp [HitsSortedDesc]), ?_⟩
  have := hitFold_perm arrivals []
  simpa [hitDrain, hitListOf] using this

/-! Role-count theorems (claim C6). -/

theorem roleStep_inv {ph : ℕ} {s s' : RoleState} (h : RoleStep ph s s')
    (hi : RoleInv s) : RoleInv s' := by
  unfold RoleInv num_frontend_threads at hi ⊢
  cases h <;> dsimp only at hi ⊢ <;> omega

/-- C6: starting from any state satisfying the role invariant, every sequence
of scheduler promotions, demotions and backend-queue events preserves it: the
number of back-end threads stays in `[1, num_threads − 1]` and the back-end
and front-end counts always sum to `num_threads`. -/
theorem c6_role_invariant (ph : ℕ) (s0 s : RoleState) (h0 : RoleInv s0)
    (hr : RoleReach ph s0 s) :
    1 ≤ s.num_backend_threads ∧ s.num_backend_threads ≤ s.num_threads - 1 ∧
      s.num_backend_threads + num_frontend_threads s = s.num_threads := by
  induction hr with
  | refl => exact h0
  | tail h step ih => exact roleStep_inv step ih

/-- C6, witness: on four threads with promotion threshold 2, three backend
enqueues followed by a promotion yield two back-end and two front-end
threads. -/
theorem c6_role_invariant_witness :
    1 ≤ (RoleState.mk 4 2 3).num_backend_threads ∧
      (RoleState.mk 4 2 3).num_backend_threads ≤ (RoleState.mk 4 2 3).num_threads - 1 ∧
      (RoleState.mk 4 2 3).num_backend_threads + num_frontend_threads (RoleState.mk 4 2 3) =
        (RoleState.mk 4 2 3).num_threads := by
  have hchain : RoleReach 2 (RoleState.mk 4 1 0) (RoleState.mk 4 2 3) :=
    Relation.ReflTransGen.tail
      (Relation.ReflTransGen.tail
        (Relation.ReflTransGen.tail
          (Relation.ReflTransGen.tail Relation.ReflTransGen.refl
            (RoleStep.enqueueEntry _))
          (RoleStep.enqueueEntry _))
        (RoleStep.enqueueEntry _))
      (RoleStep.promoteToBackend _ (by decide) (by decide))
  exact c6_role_invariant 2 (RoleState.mk 4 1 0) (RoleState.mk 4 2 3)
    ⟨by decide, by decide, by decide⟩ hchain

/-! Work-request protocol theorems (claims C4 and C9). -/

theorem reqStep_inv {s s' : ReqState} (h : ReqStep s s') (hi : ReqInv s) :
    ReqInv s' := by
  obtain ⟨h1, h2, h3⟩ := hi
  cases h with
  | observeLowWater h1f h2f =>
    refine ⟨fun _ => ⟨rfl, ?_⟩, ?_, ?_⟩
    · dsimp only
      rcases h2 with h0 | ⟨_, hw, _⟩
      · exact h0
      · rw [h1f] at hw; exact absurd hw (by simp)
    · left
      dsimp only
      rcases h2 with h0 | ⟨_, hw, _⟩
      · exact h0
      · rw [h1f] at hw; exact absurd hw (by simp)
    · intro hm
      rw [h2f] at hm
      exact absurd hm (by simp)
  | sendRequest hrw =>
    obtain ⟨hw, hz⟩ := h1 hrw
    refine ⟨fun hx => absurd hx (by simp), ?_, ?_⟩
    · right
      exact ⟨by dsimp only; omega, hw, rfl⟩
    · intro hm
      obtain ⟨hmr, _, _⟩ := h3 hm
      rw [hrw] at hmr
      exact absurd hmr (by simp)
  | recvGrant hfl =>
    rcases h2 with h0 | ⟨_, _, hrw⟩
    · omega
    · refine ⟨fun hx => ?_, Or.inl (by dsimp only; omega), fun hm => ?_⟩
      · rw [hrw] at hx; exact absurd hx (by simp)
      · obtain ⟨hmr, _, hmz⟩ := h3 hm
        omega
  | recvNoMoreWork hfl =>
    rcases h2 with h0 | ⟨hone, _, hrw⟩
    · omega
    · exact ⟨fun hx => by rw [hrw] at hx; exact absurd hx (by simp),
        Or.inl (by dsimp only; omega), fun _ => ⟨hrw, rfl, by dsimp only; omega⟩⟩
  | startNextSearch hz =>
    exact ⟨fun hx => absurd hx (by simp [reqStart]),
      Or.inl rfl, fun hm => absurd hm (by simp [reqStart])⟩

theorem reqReach_inv {s : ReqState} (hr : ReqReach s) : ReqInv s := by
  induction hr with
  | refl => exact ⟨fun hx => absurd hx (by simp [reqStart]), Or.inl rfl,
      fun hm => absurd hm (by simp [reqStart])⟩
  | tail h step ih => exact reqStep_inv step ih

/-- C4: in every reachable state of the work-request protocol at most one
`WorkRequest` to the master is outstanding: at most one sent message is
unanswered, a request can be pending locally (`request_work`) only while
nothing is in flight and `work_requested` is set, and an in-flight message
always has `work_requested` set until the master answers. -/
theorem c4_at_most_one_request (s : ReqState) (hr : ReqReach s) :
    s.inFlight ≤ 1 ∧
      (s.request_work = true → s.work_requested = true ∧ s.inFlight = 0) ∧
      (s.inFlight = 1 → s.work_requested = true) := by
  obtain ⟨h1, h2, _⟩ := reqReach_inv hr
  refine ⟨?_, h1, ?_⟩
  · rcases h2 with h0 | ⟨hone, _, _⟩ <;> omega
  · intro hone
    rcases h2 with h0 | ⟨_, hw, _⟩
    · omega
    · exact hw

/-- C4, witness: the state with one request in flight, reached by the
low-water observation followed by the main thread's send. -/
theorem c4_at_most_one_request_witness :
    (ReqState.mk false true false 1).inFlight ≤ 1 := by
  have hchain : ReqReach (ReqState.mk false true false 1) :=
    Relation.ReflTransGen.tail
      (Relation.ReflTransGen.tail Relation.ReflTransGen.refl
        (ReqStep.observeLowWater reqStart rfl rfl))
      (ReqStep.sendRequest (ReqState.mk true true false 0) rfl)
  exact (c4_at_most_one_request (ReqState.mk false true false 1) hchain).1

/-- C9: in any reachable state in which `master_queue_empty` is set, no flag
is set and nothing is in flight, and the only step the protocol can take is
starting the next search, which resets `master_queue_empty`; in particular no
further `WorkRequest` is issued to the master for the remainder of the
search. -/
theorem c9_no_request_after_no_more_work (s s' : ReqState) (hr : ReqReach s)
    (hempty : s.master_queue_empty = true) (hstep : ReqStep s s') :
    s' = reqStart ∧ s.request_work = false ∧ s.work_requested = false ∧
      s.inFlight = 0 := by
  obtain ⟨_, _, h3⟩ := reqReach_inv hr
  obtain ⟨hrw, hwr, hz⟩ := h3 hempty
  cases hstep with
  | observeLowWater h1f h2f => rw [hempty] at h2f; exact absurd h2f (by simp)
  | sendRequest hx => rw [hrw] at hx; exact absurd hx (by simp)
  | recvGrant hfl => omega
  | recvNoMoreWork hfl => omega
  | startNextSearch _ => exact ⟨rfl, hrw, hwr, hz⟩

/-- C9, witness: the state reached by observe, send, and a `NoMoreWork`
reply, from which the only move is starting the next search. -/
theorem c9_no_request_after_no_more_work_witness :
    (ReqState.mk false false true 0).request_work = false := by
  have hchain : ReqReach (ReqState.mk false false true 0) :=
    Relation.ReflTransGen.tail
      (Relation.ReflTransGen.tail
        (Relation.ReflTransGen.tail Relation.ReflTransGen.refl
          (ReqStep.observeLowWater reqStart rfl rfl))
        (ReqStep.sendRequest (ReqState.mk true true false 0) rfl))
      (ReqStep.recvNoMoreWork (ReqState.mk false true false 1) (by decide))
  exact (c9_no_request_after_no_more_work (ReqState.mk false false true 0) reqStart
    hchain rfl (ReqStep.startNextSearch _ rfl)).2.1

/-! Search-type transition theorems (claim C8). -/

theorem searchTrace_continue (t : P7_SEARCH_TYPE) (hc : continueOf t = t) :
    ∀ (msgs : List MidMsg), searchTrace t msgs = List.replicate (msgs.length + 1) t := by
  intro msgs
  induction msgs with
  | nil => rfl
  | cons m ms ih =>
    cases m with
    | workGrant r =>
      rw [searchTrace, List.scanl_cons]
      rw [searchTrace] at ih
      simp only [handleMid, hc, ih]
      rfl
    | noMoreWork =>
      rw [searchTrace, List.scanl_cons]
      rw [searchTrace] at ih
      simp only [handleMid, ih]
      rfl

/-- C8: from either initial in-search variant, `search_type` moves to the
corresponding `Continue` variant exactly once — at the first `WorkGrant`
after the start — and stays there for the rest of the message sequence, never
returning to the initial variant; the `Continue` variant is a different value
from the initial one, and threads that wake up while it is current skip the
start-of-search work that the initial variant runs. -/
theorem c8_continue_exactly_once (t0 : P7_SEARCH_TYPE)
    (h : t0 = P7_SEARCH_TYPE.SEQUENCE_SEARCH ∨ t0 = P7_SEARCH_TYPE.HMM_SEARCH)
    (msgs : List MidMsg) :
    searchTrace t0 msgs =
      List.replicate ((msgs.takeWhile (fun m => !isGrant m)).length + 1) t0 ++
        List.replicate (msgs.length - (msgs.takeWhile (fun m => !isGrant m)).length)
          (continueOf t0) ∧
      continueOf t0 ≠ t0 ∧ isContinueVariant (continueOf t0) = true ∧
      isContinueVariant t0 = false ∧
      runsStartOfSearchWork (continueOf t0) = false ∧
      runsStartOfSearchWork t0 = true := by
  have hcc : continueOf (continueOf t0) = continueOf t0 := by
    rcases h with rfl | rfl <;> rfl
  refine ⟨?_, ?_⟩
  · induction msgs with
    | nil => rfl
    | cons m ms ih =>
      cases m with
      | workGrant r =>
        rw [searchTrace, List.scanl_cons]
        have hrest := searchTrace_continue (continueOf t0) hcc ms
        rw [searchTrace] at hrest
        simp only [handleMid]
        rw [hrest]
        have h1 : ((MidMsg.workGrant r :: ms).takeWhile (fun m => !isGrant m)) =
            ([] : List MidMsg) := by
          simp [List.takeWhile, isGrant]
        rw [h1]
        simp
      | noMoreWork =>
        rw [searchTrace, List.scanl_cons]
        rw [searchTrace] at ih
        simp only [handleMid]
        rw [ih]
        have h1 : ((MidMsg.noMoreWork :: ms).takeWhile (fun m => !isGrant m)) =
            MidMsg.noMoreWork :: ms.takeWhile (fun m => !isGrant m) := by
          simp [List.takeWhile, isGrant]
        rw [h1]
        simp only [List.length_cons]
        have h2 : ms.length + 1 - ((ms.takeWhile (fun m => !isGrant m)).length + 1) =
            ms.length - (ms.takeWhile (fun m => !isGrant m)).length := by omega
        rw [h2]
        simp [List.replicate_succ]
  · rcases h with rfl | rfl <;> exact ⟨by decide, by decide, by decide, by decide, by decide⟩

/-- C8, witness: a sequence search whose master sends `NoMoreWork` first and
then two grants stays in `SEQUENCE_SEARCH` until the first grant and is
`SEQUENCE_SEARCH_CONTINUE` from then on. -/
theorem c8_continue_exactly_once_witness :
    searchTrace P7_SEARCH_TYPE.SEQUENCE_SEARCH
        [MidMsg.noMoreWork, MidMsg.workGrant (0, 5), MidMsg.workGrant (5, 9)] =
      [P7_SEARCH_TYPE.SEQUENCE_SEARCH, P7_SEARCH_TYPE.SEQUENCE_SEARCH,
        P7_SEARCH_TYPE.SEQUENCE_SEARCH_CONTINUE,
        P7_SEARCH_TYPE.SEQUENCE_SEARCH_CONTINUE] := by
  have h := (c8_continue_exactly_once P7_SEARCH_TYPE.SEQUENCE_SEARCH (Or.inl rfl)
    [MidMsg.noMoreWork, MidMsg.workGrant (0, 5), MidMsg.workGrant (5, 9)]).1
  exact h.trans (by decide)

/-! Configuration-frame theorems (claim C10). -/

/-- Zero or more worker-node operations. -/
def NodeReach : P7_SERVER_WORKERNODE_STATE → P7_SERVER_WORKERNODE_STATE → Prop :=
  Relation.ReflTransGen NodeStep

theorem nodeStep_config_frame {s s' : P7_SERVER_WORKERNODE_STATE}
    (h : NodeStep s s') :
    s'.my_rank = s.my_rank ∧ s'.num_databases = s.num_databases ∧
      s'.num_shards = s.num_shards ∧ s'.my_shard = s.my_shard ∧
      s'.database_shards = s.database_shards ∧ s'.num_threads = s.num_threads ∧
      s'.thread_objs = s.thread_objs := by
  cases h <;> exact ⟨rfl, rfl, rfl, rfl, rfl, rfl, rfl⟩

/-- C10: across any sequence of worker-node operations performed after setup
— searches starting and ending, grants and `NoMoreWork` arriving, taking and
stealing work, request gating, role changes, hit insertion, waiting and
shutdown — the configuration fields `my_rank`, `num_databases`, `num_shards`,
`my_shard`, `database_shards`, `num_threads` and `thread_objs` never
change. -/
theorem c10_config_immutable (s s' : P7_SERVER_WORKERNODE_STATE)
    (h : NodeReach s s') :
    s'.my_rank = s.my_rank ∧ s'.num_databases = s.num_databases ∧
      s'.num_shards = s.num_shards ∧ s'.my_shard = s.my_shard ∧
      s'.database_shards = s.database_shards ∧ s'.num_threads = s.num_threads ∧
      s'.thread_objs = s.thread_objs := by
  induction h with
  | refl => exact ⟨rfl, rfl, rfl, rfl, rfl, rfl, rfl⟩
  | tail h step ih =>
    have hs := nodeStep_config_frame step
    exact ⟨hs.1.trans ih.1, hs.2.1.trans ih.2.1, hs.2.2.1.trans ih.2.2.1,
      hs.2.2.2.1.trans ih.2.2.2.1, hs.2.2.2.2.1.trans ih.2.2.2.2.1,
      hs.2.2.2.2.2.1.trans ih.2.2.2.2.2.1, hs.2.2.2.2.2.2.trans ih.2.2.2.2.2.2⟩

/-- C10, witness: a search start followed by a work grant and shutdown leaves
the configuration of a two-thread, one-shard node untouched. -/
theorem c10_config_immutable_witness :
    (P7_SERVER_WORKERNODE_STATE.mk 3 1 1 0 [7] 2 [11, 12] 1 100 0 false true
        (continueOf P7_SEARCH_TYPE.SEQUENCE_SEARCH) 0 [(0, 50), (50, 100)]
        [] 0 [(100, 200)] false false false 0).num_shards =
      (P7_SERVER_WORKERNODE_STATE.mk 3 1 1 0 [7] 2 [11, 12] 1 100 0 false false
        P7_SEARCH_TYPE.IDLE 0 [] [] 0 [] false false false 0).num_shards := by
  have h1 : NodeStep
      (P7_SERVER_WORKERNODE_STATE.mk 3 1 1 0 [7] 2 [11, 12] 1 100 0 false false
        P7_SEARCH_TYPE.IDLE 0 [] [] 0 [] false false false 0)
      (P7_SERVER_WORKERNODE_STATE.mk 3 1 1 0 [7] 2 [11, 12] 1 100 0 false false
        P7_SEARCH_TYPE.SEQUENCE_SEARCH 0 [(0, 50), (50, 100)] [] 0 [] false false false 0) :=
    NodeStep.startSearch _ P7_SEARCH_TYPE.SEQUENCE_SEARCH 0 [(0, 50), (50, 100)]
  have h2 : NodeStep
      (P7_SERVER_WORKERNODE_STATE.mk 3 1 1 0 [7] 2 [11, 12] 1 100 0 false false
        P7_SEARCH_TYPE.SEQUENCE_SEARCH 0 [(0, 50), (50, 100)] [] 0 [] false false false 0)
      (P7_SERVER_WORKERNODE_STATE.mk 3 1 1 0 [7] 2 [11, 12] 1 100 0 false false
        (continueOf P7_SEARCH_TYPE.SEQUENCE_SEARCH) 0 [(0, 50), (50, 100)]
        [] 0 [(100, 200)] false false false 0) :=
    NodeStep.workGrantArrives _ (100, 200)
  have h3 : NodeStep
      (P7_SERVER_WORKERNODE_STATE.mk 3 1 1 0 [7] 2 [11, 12] 1 100 0 false false
        (continueOf P7_SEARCH_TYPE.SEQUENCE_SEARCH) 0 [(0, 50), (50, 100)]
        [] 0 [(100, 200)] false false false 0)
      (P7_SERVER_WORKERNODE_STATE.mk 3 1 1 0 [7] 2 [11, 12] 1 100 0 false true
        (continueOf P7_SEARCH_TYPE.SEQUENCE_SEARCH) 0 [(0, 50), (50, 100)]
        [] 0 [(100, 200)] false false false 0) :=
    NodeStep.shutdownNode _
  exact (c10_config_immutable _ _ (Relation.ReflTransGen.tail
    (Relation.ReflTransGen.tail (Relation.ReflTransGen.tail
      Relation.ReflTransGen.refl h1) h2) h3)).2.2.1

/-! Exactly-once theorems (claim C1). -/

theorem sum_split_cancel {M : Type} [AddCancelCommMonoid M] (B A u v w : M)
    (h1 : B + u = A + w) (hs : u = v + w) : B + v = A := by
  have h3 : B + v + w = A + w := by
    rw [add_assoc, ← hs]
    exact h1
  exact add_right_cancel h3

theorem map_sum_set {α : Type} (f : α → Multiset ℕ) :
    ∀ (l : List α) (i : ℕ) (a x : α), l[i]? = some a →
      ((l.set i x).map f).sum + f a = (l.map f).sum + f x := by
  intro l
  induction l with
  | nil => intro i a x h; simp at h
  | cons hd tl ih =>
    intro i a x h
    cases i with
    | zero =>
      simp only [List.getElem?_cons_zero, Option.some.injEq] at h
      subst h
      simp only [List.set_cons_zero, List.map_cons, List.sum_cons]
      abel
    | succ n =>
      simp only [List.getElem?_cons_succ] at h
      simp only [List.set_cons_succ, List.map_cons, List.sum_cons]
      rw [add_assoc, ih n a x h, ← add_assoc]

theorem shardIds_empty {ns ms s e : ℕ} (h : e ≤ s) : shardIds ns ms (s, e) = 0 := by
  simp [shardIds, rangeIds_empty h]

theorem shardIds_split (ns ms s e k : ℕ) (h : k ≤ e - s) :
    shardIds ns ms (s, e) = shardIds ns ms (s, s + k) + shardIds ns ms (s + k, e) := by
  simp only [shardIds]
  rw [rangeIds_split s e k h, List.filter_append]
  rfl

theorem distStep_conserved {ns ms : ℕ} {st st' : DistState}
    (h : DistStep ns ms st st') (hc : Conserved ns ms st) : Conserved ns ms st' := by
  unfold Conserved pendingIds grantedIds at hc ⊢
  cases h with
  | grant c hnm =>
    dsimp only
    rw [List.map_append, List.sum_append, List.map_append, List.sum_append]
    simp only [List.map_cons, List.map_nil, List.sum_cons, List.sum_nil, add_zero]
    rw [← hc]
    abel
  | noMoreWork => exact hc
  | takeLocal t s e k ht hk =>
    dsimp only
    have hset := map_sum_set (shardIds ns ms) st.ranges t (s, e) (s + k, e) ht
    have hsplit := shardIds_split ns ms s e k hk
    have h2 := sum_split_cancel ((st.ranges.set t (s + k, e)).map (shardIds ns ms)).sum
      (st.ranges.map (shardIds ns ms)).sum (shardIds ns ms (s, e))
      (shardIds ns ms (s, s + k)) (shardIds ns ms (s + k, e)) hset hsplit
    rw [← hc, ← h2]
    abel
  | steal t v a s e m hne ht hv hm1 hm2 =>
    dsimp only
    have hset1 := map_sum_set (shardIds ns ms) st.ranges v (s, e) (s, m) hv
    have hget : (st.ranges.set v (s, m))[t]? = some (a, a) := by
      rw [List.getElem?_set_ne (Ne.symm hne)]
      exact ht
    have hset2 := map_sum_set (shardIds ns ms) (st.ranges.set v (s, m)) t (a, a) (m, e) hget
    rw [shardIds_empty le_rfl, add_zero] at hset2
    have hsplit : shardIds ns ms (s, e) = shardIds ns ms (m, e) + shardIds ns ms (s, m) := by
      have hk : m - s ≤ e - s := by omega
      have hx := shardIds_split ns ms s e (m - s) hk
      have hsm : s + (m - s) = m := by omega
      rw [hsm] at hx
      rw [hx]
      abel
    have h2 := sum_split_cancel ((st.ranges.set v (s, m)).map (shardIds ns ms)).sum
      (st.ranges.map (shardIds ns ms)).sum (shardIds ns ms (s, e))
      (shardIds ns ms (m, e)) (shardIds ns ms (s, m)) hset1 hsplit
    rw [hset2, h2]
    exact hc
  | pull t a c rest k ht hq hk =>
    obtain ⟨c1, c2⟩ := c
    dsimp only
    have hset := map_sum_set (shardIds ns ms) st.ranges t (a, a) (c1, c1 + k) ht
    rw [shardIds_empty le_rfl, add_zero] at hset
    have hsplit := shardIds_split ns ms c1 c2 k hk
    rw [hq] at hc
    simp only [List.map_cons, List.sum_cons] at hc ⊢
    rw [hset, ← hc, hsplit]
    abel
  | dropChunk c rest hq hcc =>
    obtain ⟨c1, c2⟩ := c
    dsimp only
    rw [hq] at hc
    simp only [List.map_cons, List.sum_cons] at hc
    rw [shardIds_empty hcc, zero_add] at hc
    exact hc
  | promote => exact hc
  | demote => exact hc

theorem distReach_conserved {ns ms numThreads : ℕ} {R : ℕ × ℕ} {st : DistState}
    (hr : DistReach ns ms (distStart numThreads R) st) : Conserved ns ms st := by
  have h0 : Conserved ns ms (distStart numThreads R) := by
    unfold Conserved pendingIds grantedIds distStart
    dsimp only
    rw [List.map_replicate, shardIds_empty le_rfl]
    simp
  induction hr with
  | refl => exact h0
  | tail h step ih => exact distStep_conserved step ih

theorem count_shardIds_one {ns ms : ℕ} {c : ℕ × ℕ} {id : ℕ}
    (hmem : id ∈ rangeIds c.1 c.2) (hp : onShard ns ms id = true) :
    Multiset.count id (shardIds ns ms c) = 1 := by
  simp only [shardIds]
  rw [Multiset.coe_count]
  have hnd : ((rangeIds c.1 c.2).filter (onShard ns ms)).Nodup :=
    (rangeIds_nodup _ _).filter _
  have hm : id ∈ (rangeIds c.1 c.2).filter (onShard ns ms) :=
    List.mem_filter.mpr ⟨hmem, hp⟩
  have h1 := List.nodup_iff_count_le_one.mp hnd id
  have h2 := List.count_pos_iff.mpr hm
  omega

theorem count_shardIds_zero {ns ms : ℕ} {c : ℕ × ℕ} {id : ℕ}
    (hmem : id ∉ rangeIds c.1 c.2) :
    Multiset.count id (shardIds ns ms c) = 0 := by
  simp only [shardIds]
  rw [Multiset.coe_count, List.count_eq_zero]
  intro hx
  exact hmem (List.mem_filter.mp hx).1

theorem count_chunkSum_zero {ns ms id : ℕ} :
    ∀ (l : List (ℕ × ℕ)), (∀ c ∈ l, id ∉ rangeIds c.1 c.2) →
      Multiset.count id ((l.map (shardIds ns ms)).sum) = 0 := by
  intro l
  induction l with
  | nil => intro _; simp
  | cons c cs ih =>
    intro h
    simp only [List.map_cons, List.sum_cons, Multiset.count_add]
    rw [count_shardIds_zero (h c (by simp)), ih (fun d hd => h d (by simp [hd]))]

theorem count_chunkSum_one {ns ms id : ℕ} (hp : onShard ns ms id = true) :
    ∀ (l : List (ℕ × ℕ)), l.Pairwise ChunksDisjoint →
      (∃ c ∈ l, id ∈ rangeIds c.1 c.2) →
      Multiset.count id ((l.map (shardIds ns ms)).sum) = 1 := by
  intro l
  induction l with
  | nil =>
    rintro _ ⟨c, hc, _⟩
    simp at hc
  | cons c cs ih =>
    intro hpw hex
    rw [List.pairwise_cons] at hpw
    simp only [List.map_cons, List.sum_cons, Multiset.count_add]
    by_cases hin : id ∈ rangeIds c.1 c.2
    · rw [count_shardIds_one hin hp,
        count_chunkSum_zero cs (fun d hd => hpw.1 d hd id hin)]
    · obtain ⟨d, hd, hid⟩ := hex
      rcases List.mem_cons.mp hd with hdc | hd2
      · rw [hdc] at hid
        exact absurd hid hin
      · rw [count_shardIds_zero hin, ih hpw.2 ⟨d, hd2, hid⟩]

/-- C1: for every search — a `SearchStart` with range `R`, zero or more
`WorkGrant`s, and a terminating `NoMoreWork` — and every interleaving of
batch-taking, work-stealing, global-queue pulling and splitting, and role
reassignment, once the search terminates every object ID in the granted
ranges that satisfies the shard predicate has been offered to
`pipeline.front` exactly once (provided the master granted pairwise-disjoint
ranges). -/
theorem c1_exactly_once (ns ms numThreads : ℕ) (R : ℕ × ℕ) (st : DistState)
    (hreach : DistReach ns ms (distStart numThreads R) st)
    (hterm : DistTerminal ns ms st)
    (hdisj : st.granted.Pairwise ChunksDisjoint)
    (id : ℕ) (hshard : onShard ns ms id = true)
    (hmem : ∃ c ∈ st.granted, id ∈ rangeIds c.1 c.2) :
    Multiset.count id st.offered = 1 := by
  have hcons : Conserved ns ms st := distReach_conserved hreach
  unfold Conserved at hcons
  rw [hterm.2, add_zero] at hcons
  rw [hcons]
  exact count_chunkSum_one hshard st.granted hdisj hmem

/-- C1, witness: a one-thread, one-shard search over the range of IDs 0 and 1
in which the thread pulls the whole initial chunk, drains it, and then
`NoMoreWork` arrives; ID 0 is offered exactly once. -/
theorem c1_exactly_once_witness :
    Multiset.count 0 (DistState.offered
      (DistState.mk [(2, 2)] [(2, 2)] [(0, 2)] (0 + shardIds 1 0 (0, 2)) 1 true)) = 1 := by
  have h1 : DistStep 1 0 (distStart 1 (0, 2))
      (DistState.mk [(0, 2)] [(2, 2)] [(0, 2)] 0 1 false) :=
    DistStep.pull (distStart 1 (0, 2)) 0 0 (0, 2) [] 2 rfl rfl (by decide)
  have h2 : DistStep 1 0 (DistState.mk [(0, 2)] [(2, 2)] [(0, 2)] 0 1 false)
      (DistState.mk [(2, 2)] [(2, 2)] [(0, 2)] (0 + shardIds 1 0 (0, 2)) 1 false) :=
    DistStep.takeLocal _ 0 0 2 2 rfl (by decide)
  have h3 : DistStep 1 0
      (DistState.mk [(2, 2)] [(2, 2)] [(0, 2)] (0 + shardIds 1 0 (0, 2)) 1 false)
      (DistState.mk [(2, 2)] [(2, 2)] [(0, 2)] (0 + shardIds 1 0 (0, 2)) 1 true) :=
    DistStep.noMoreWork _
  exact c1_exactly_once 1 0 1 (0, 2)
    (DistState.mk [(2, 2)] [(2, 2)] [(0, 2)] (0 + shardIds 1 0 (0, 2)) 1 true)
    (Relation.ReflTransGen.tail
      (Relation.ReflTransGen.tail
        (Relation.ReflTransGen.tail Relation.ReflTransGen.refl h1) h2) h3)
    ⟨rfl, by decide⟩ (by simp [ChunksDisjoint]) 0 rfl (by decide)

end HmmerServer
